import Mathlib

/-!
Verification of the `truncateString` utility (src/truncateString.cpp).

The C++ function operates on `std::string` (a positional sequence of
characters) and a `size_t` width.  We embed strings as `List Char` and the
width as `Nat`; `str.substr(0, k)` becomes `List.take k` and appending the
marker `"."` becomes `++ ['.']`.
-/

/-- Shallow embedding of `truncateString` from `src/truncateString.cpp`:

```cpp
std::string truncateString(const std::string& str, size_t width) {
    if (str.length() > width) {
        if (width > 1) {
            return str.substr(0, width - 1) + ".";
        } else if (width == 1) {
            return str.substr(0, 1);
        } else {
            return "";
        }
    }
    return str;
}
```
-/
def truncateString (str : List Char) (width : Nat) : List Char :=
  if str.length > width then
    if width > 1 then
      str.take (width - 1) ++ ['.']
    else if width = 1 then
      str.take 1
    else
      []
  else
    str

/-- Helper: when the input fits, the function returns it unchanged. -/
lemma trunc_eq_of_le (s : List Char) (w : Nat) (h : s.length ≤ w) :
    truncateString s w = s := by
  unfold truncateString
  rw [if_neg (by omega)]

/-- Helper: the truncating branch for widths greater than one. -/
lemma trunc_eq_take_concat (s : List Char) (w : Nat) (h : w < s.length)
    (hw : 1 < w) : truncateString s w = s.take (w - 1) ++ ['.'] := by
  unfold truncateString
  rw [if_pos (by omega), if_pos (by omega)]

/-- Helper: the truncating branch at width one. -/
lemma trunc_eq_take_one (s : List Char) (h : 1 < s.length) :
    truncateString s 1 = s.take 1 := by
  unfold truncateString
  rw [if_pos (by omega), if_neg (by omega), if_pos rfl]

/-- Helper: width zero always yields the empty list. -/
lemma trunc_zero (s : List Char) : truncateString s 0 = [] := by
  unfold truncateString
  rcases Nat.eq_zero_or_pos s.length with h | h
  · rw [if_neg (by omega)]
    exact List.eq_nil_of_length_eq_zero h
  · rw [if_pos (by omega), if_neg (by omega), if_neg (by omega)]

/-- Helper: the output length is exactly `min (len s) w`. -/
lemma trunc_len (s : List Char) (w : Nat) :
    (truncateString s w).length = min s.length w := by
  unfold truncateString
  split
  · split
    · simp only [List.length_append, List.length_take, List.length_singleton]
      omega
    · split
      · simp only [List.length_take]
        omega
      · simp only [List.length_nil]
        omega
  · omega

/-- C1: for every input string `s` and every non-negative width `w`, the
length of `truncateString s w` equals `min (len s) w` (which is `0` when
`w = 0`). -/
theorem truncateString_length_eq_min (s : List Char) (w : Nat) :
    (truncateString s w).length = min s.length w :=
  trunc_len s w

/-- C2: for every input string `s` and every non-negative width `w`, the
length of `truncateString s w` is at most `w`. -/
theorem truncateString_length_le_width (s : List Char) (w : Nat) :
    (truncateString s w).length ≤ w := by
  rw [trunc_len]
  omega

/-- C3: whenever `len s ≤ w`, `truncateString s w` returns `s` unchanged; in
particular the empty string is returned unchanged for every width. -/
theorem truncateString_id_of_fits (s : List Char) (w : Nat)
    (h : s.length ≤ w) : truncateString s w = s :=
  trunc_eq_of_le s w h

/-- Witness for C3 at `s = "abc"`, `w = 5`. -/
theorem truncateString_id_of_fits_witness :
    (['a', 'b', 'c'] : List Char).length ≤ 5 ∧
      truncateString ['a', 'b', 'c'] 5 = ['a', 'b', 'c'] :=
  ⟨by decide, truncateString_id_of_fits ['a', 'b', 'c'] 5 (by decide)⟩

/-- C4: when `len s > w` and `w > 1`, the result is the first `w - 1`
characters of `s` followed by the single marker `'.'`; hence its length is
exactly `w` and its last character is the marker. -/
theorem truncateString_marker (s : List Char) (w : Nat)
    (h : w < s.length) (hw : 1 < w) :
    truncateString s w = s.take (w - 1) ++ ['.'] ∧
      (truncateString s w).length = w ∧
      (truncateString s w).getLast? = some '.' := by
  refine ⟨trunc_eq_take_concat s w h hw, ?_, ?_⟩
  · rw [trunc_len]
    omega
  · rw [trunc_eq_take_concat s w h hw]
    simp

/-- Witness for C4 at `s = "abcdef"`, `w = 5`. -/
theorem truncateString_marker_witness :
    5 < (['a', 'b', 'c', 'd', 'e', 'f'] : List Char).length ∧ 1 < 5 ∧
      (truncateString ['a', 'b', 'c', 'd', 'e', 'f'] 5 =
          (['a', 'b', 'c', 'd', 'e', 'f'] : List Char).take 4 ++ ['.'] ∧
        (truncateString ['a', 'b', 'c', 'd', 'e', 'f'] 5).length = 5 ∧
        (truncateString ['a', 'b', 'c', 'd', 'e', 'f'] 5).getLast? =
          some '.') :=
  ⟨by decide, by decide,
    truncateString_marker ['a', 'b', 'c', 'd', 'e', 'f'] 5 (by decide)
      (by decide)⟩

/-- C5: when `len s > 1`, `truncateString s 1` is exactly the one-element
string holding the first character of `s`, with no marker appended. -/
theorem truncateString_width_one (s : List Char) (h : 1 < s.length) :
    truncateString s 1 = [s.headI] := by
  rw [trunc_eq_take_one s h]
  cases s with
  | nil => simp at h
  | cons c rest => rfl

/-- Witness for C5 at `s = "abc"`. -/
theorem truncateString_width_one_witness :
    1 < (['a', 'b', 'c'] : List Char).length ∧
      truncateString ['a', 'b', 'c'] 1 = [(['a', 'b', 'c'] : List Char).headI] :=
  ⟨by decide, truncateString_width_one ['a', 'b', 'c'] (by decide)⟩

/-- C6: for every input string `s`, `truncateString s 0` is the empty
string. -/
theorem truncateString_width_zero (s : List Char) :
    truncateString s 0 = [] :=
  trunc_zero s

/-- C7: `truncateString` is idempotent at a fixed width: truncating an
already-truncated string at the same width changes nothing. -/
theorem truncateString_idempotent (s : List Char) (w : Nat) :
    truncateString (truncateString s w) w = truncateString s w :=
  trunc_eq_of_le _ _ (by rw [trunc_len]; omega)

/-- C8: `truncateString` is deterministic and pure: it is embedded as a
total function of its two parameters alone, so equal arguments always give
equal results. -/
theorem truncateString_deterministic (s₁ s₂ : List Char) (w₁ w₂ : Nat)
    (hs : s₁ = s₂) (hw : w₁ = w₂) :
    truncateString s₁ w₁ = truncateString s₂ w₂ := by
  rw [hs, hw]

/-- Witness for C8 at `s = "ab"`, `w = 3`. -/
theorem truncateString_deterministic_witness :
    (['a', 'b'] : List Char) = ['a', 'b'] ∧ (3 : Nat) = 3 ∧
      truncateString ['a', 'b'] 3 = truncateString ['a', 'b'] 3 :=
  ⟨rfl, rfl, truncateString_deterministic ['a', 'b'] ['a', 'b'] 3 3 rfl rfl⟩

/-- C9: successive truncation composes: truncating at a wider width `w₂`
first and then at a narrower width `w₁ ≤ w₂` agrees with truncating at
`w₁` directly. -/
theorem truncateString_comp (s : List Char) (w₁ w₂ : Nat) (h : w₁ ≤ w₂) :
    truncateString (truncateString s w₂) w₁ = truncateString s w₁ := by
  rcases le_or_lt s.length w₂ with h₂ | h₂
  · rw [trunc_eq_of_le s w₂ h₂]
  · rcases Nat.eq_or_lt_of_le h with rfl | hlt
    · exact trunc_eq_of_le _ _ (by rw [trunc_len]; omega)
    · rcases Nat.lt_or_ge 1 w₁ with hw₁ | hw₁
      · have hw₂ : 1 < w₂ := by omega
        rw [trunc_eq_take_concat s w₂ h₂ hw₂]
        rw [trunc_eq_take_concat _ w₁ (by simp; omega) hw₁]
        rw [trunc_eq_take_concat s w₁ (by omega) hw₁]
        have htk : (s.take (w₂ - 1) ++ ['.']).take (w₁ - 1) =
            s.take (w₁ - 1) := by
          rw [List.take_append_of_le_length (by simp; omega), List.take_take]
          congr 1
          omega
        rw [htk]
      · rcases Nat.eq_or_lt_of_le hw₁ with rfl | hw₀
        · have hw₂ : 1 < w₂ := by omega
          rw [trunc_eq_take_concat s w₂ h₂ hw₂]
          rw [trunc_eq_take_one _ (by simp; omega)]
          rw [trunc_eq_take_one s (by omega)]
          rw [List.take_append_of_le_length (by simp; omega), List.take_take]
          congr 1
          omega
        · have hw : w₁ = 0 := by omega
          rw [hw, trunc_zero, trunc_zero]

/-- Witness for C9 at `s = "abcdef"`, `w₂ = 5`, `w₁ = 3`. -/
theorem truncateString_comp_witness :
    (3 : Nat) ≤ 5 ∧
      truncateString (truncateString ['a', 'b', 'c', 'd', 'e', 'f'] 5) 3 =
        truncateString ['a', 'b', 'c', 'd', 'e', 'f'] 3 :=
  ⟨by decide, truncateString_comp ['a', 'b', 'c', 'd', 'e', 'f'] 3 5 (by decide)⟩

/-- C10: the result of `truncateString s w` is either an initial segment of
`s` (possibly `s` itself or empty), or a proper initial segment of `s`
followed by the single marker `'.'`; consequently its length never exceeds
the length of `s`. -/
theorem truncateString_initial_or_marked (s : List Char) (w : Nat) :
    ((∃ t, truncateString s w ++ t = s) ∨
        (∃ p t, p ++ t = s ∧ t ≠ [] ∧ truncateString s w = p ++ ['.'])) ∧
      (truncateString s w).length ≤ s.length := by
  constructor
  · rcases le_or_lt s.length w with h | h
    · exact Or.inl ⟨[], by rw [trunc_eq_of_le s w h, List.append_nil]⟩
    · rcases Nat.lt_or_ge 1 w with hw | hw
      · refine Or.inr ⟨s.take (w - 1), s.drop (w - 1),
          List.take_append_drop (w - 1) s, ?_, trunc_eq_take_concat s w h hw⟩
        intro hd
        have := congrArg List.length hd
        simp at this
        omega
      · rcases Nat.eq_or_lt_of_le hw with rfl | hw₀
        · exact Or.inl ⟨s.drop 1, by
            rw [trunc_eq_take_one s (by omega), List.take_append_drop]⟩
        · have hw1 : w = 0 := by omega
          exact Or.inl ⟨s, by rw [hw1, trunc_zero, List.nil_append]⟩
  · rw [trunc_len]
    omega
